import Mathlib

/-
Verification development for the DG solver sources of yaourt-fem-dg
(src/unnamed/part_000 and src/unnamed/part_001, plus src/core/dataio.hpp).

The scalar type `T` (`double` in the sources) is modelled as `ℚ`: all the
arithmetic of the embedded code is exact field arithmetic, and floating-point
rounding is outside the scope of the statements proved here.  C++ exceptions
(`throw std::invalid_argument`) and fatal assertions (`assert`) are modelled
with `Except String`: an error value means the call aborted and produced no
new assembler state (in the sources both checks run before any mutation).

Mesh cells are identified with their dense offset, following the spec of the
external mesh collaborator: `offset(msh, cl)` returns a dense index in
`[0, num_cells)` and offsets are a permutation of that range; the assembler
consumes cells only through `offset`, so a cell is embedded as its offset.
-/

/-- Sparse-matrix entry prior to structural finalization (`blaze::triplet`):
a (row, col, value) record. -/
structure triplet where
  row : Nat
  col : Nat
  val : ℚ
deriving DecidableEq, Repr

/-- Sum of the values of all triplets of `ts` carrying coordinate (r, c). -/
def tripletSum (ts : List triplet) (r c : Nat) : ℚ :=
  ((ts.filter (fun t => t.row == r && t.col == c)).map triplet.val).sum

/-- Modelled from the spec: `blaze::init_from_triplets`
(core/blaze_sparse_init.hpp, which is not among the sources) converts an
accumulated entry list into the sparse matrix structure; entries with equal
(row, col) coordinates are summed. -/
def init_from_triplets (ts : List triplet) : Nat → Nat → ℚ :=
  fun r c => tripletSum ts r c

/-- Modelled from the spec: `bases::scalar_basis_size(degree, dim)`
(core/bases.hpp, not among the sources) gives the dimension of the scalar
polynomial basis of the given degree without constructing an element; for
`dim = 2` this is the dimension (k+1)(k+2)/2 of 2-D polynomials of degree ≤ k.
The assembler claims below do not depend on the concrete formula. -/
def scalar_basis_size (degree dim : Nat) : Nat :=
  (degree + 1) * (degree + 2) / 2

/-- The list of triplets emitted by one `assembler::assemble` call
(part_001 lines 68-81 / 95-107): the nested i/j loop pushes, in loop order,
one triplet per index pair (i, j) with global row `ofs_a + i`, global column
`ofs_b + j` and value `m i j`, where `ofs_a`/`ofs_b` are the cell offsets
multiplied by the basis size. -/
def cellTriplets (bs ofs_a ofs_b : Nat) (m : Nat → Nat → ℚ) : List triplet :=
  (List.range bs).flatMap
    (fun i => (List.range bs).map (fun j => ⟨ofs_a + i, ofs_b + j, m i j⟩))

/-- Embeds `std::abs` on the scalar type: the absolute value, written as an
executable conditional on ℚ.  `ratAbs_eq_abs` below identifies it with
Mathlib's `|·|`. -/
def ratAbs (x : ℚ) : ℚ := if x < 0 then -x else x

/-- Message of the `std::invalid_argument` thrown by the assembler. -/
def invalid_state_msg : String := "Assembler in invalid state"

/-- Marker for the fatal `assert` in `assembler::finalize`. -/
def assert_fail_msg : String := "assertion failed"

/-- State of `class assembler` (part_001 lines 18-137).  `lhs`, `pc` are the
sparse matrices (as total entry functions), `rhs` the dense right-hand side,
`pc_temp` the running diagonal preconditioner buffer. -/
structure assembler where
  triplets    : List triplet
  pc_triplets : List triplet
  sys_size    : Nat
  basis_size  : Nat
  build_pc    : Bool
  lhs         : Nat → Nat → ℚ
  rhs         : Nat → ℚ
  pc          : Nat → Nat → ℚ
  pc_temp     : Nat → ℚ

/-- The default-constructed assembler (part_001 lines 36-38): only
`sys_size = 0` and `basis_size = 0` are set; `build_pc` is uninitialized in
the source and is never read before `initialize` runs, so it is fixed to
`false` here; vectors and matrices are empty. -/
def assembler.init0 : assembler :=
  ⟨[], [], 0, 0, false, fun _ _ => 0, fun _ => 0, fun _ _ => 0, fun _ => 0⟩

/-- Embeds `assembler::initialize(msh, degree, bpc)` (part_001 lines 45-55);
the mesh enters only through `msh.cells.size()`.  `basis_size` is set from
`scalar_basis_size(degree, 2)` and `sys_size = basis_size * num_cells`;
`pc_temp` becomes the zero vector of length `sys_size`.  Note that line 54 of
the source assigns `build_pc = true` unconditionally: the parameter `bpc` is
dead (it is kept in the signature for fidelity to the source).  The resize
calls on `lhs`, `rhs` and `pc` are modelled as keeping the stored values:
`lhs` and `pc` are fully rewritten by `finalize` before being read, and `rhs`
rows are written by `assemble` before being read. -/
def assembler.init (a : assembler) (num_cells degree : Nat) (bpc : Bool) : assembler :=
  let bs := scalar_basis_size degree 2
  { a with
    basis_size := bs,
    sys_size := bs * num_cells,
    pc_temp := fun _ => 0,
    build_pc := true }

/-- Embeds the two-cell overload `assembler::assemble(msh, cl_a, cl_b,
local_rhs)` (part_001 lines 57-84).  The guard `sys_size == 0 or
basis_size == 0` throws `std::invalid_argument` before any mutation.
Otherwise the nested loop pushes `cellTriplets` onto the triplet list and,
for every emitted entry with equal global row and column and `build_pc` set,
adds its value to `pc_temp` at that index — in total, the diagonal sum of the
emitted triplets. -/
def assembler.assemble (a : assembler) (cl_a cl_b : Nat) (local_rhs : Nat → Nat → ℚ) :
    Except String assembler :=
  if a.sys_size = 0 ∨ a.basis_size = 0 then
    .error invalid_state_msg
  else
    let ts := cellTriplets a.basis_size (cl_a * a.basis_size) (cl_b * a.basis_size) local_rhs
    .ok { a with
      triplets := a.triplets ++ ts,
      pc_temp := fun k => a.pc_temp k + (if a.build_pc then tripletSum ts k k else 0) }

/-- Embeds the one-cell overload `assembler::assemble(msh, cl, local_rhs,
local_lhs)` (part_001 lines 86-113): same guard and triplet/`pc_temp`
behaviour with `cl_a = cl_b = cl`, and additionally `rhs[cl_ofs + i] =
local_lhs[i]` is written (overwrite, not accumulate) for every local row i. -/
def assembler.assemble_cell (a : assembler) (cl : Nat) (local_rhs : Nat → Nat → ℚ)
    (local_lhs : Nat → ℚ) : Except String assembler :=
  if a.sys_size = 0 ∨ a.basis_size = 0 then
    .error invalid_state_msg
  else
    let ofs := cl * a.basis_size
    let ts := cellTriplets a.basis_size ofs ofs local_rhs
    .ok { a with
      triplets := a.triplets ++ ts,
      pc_temp := fun k => a.pc_temp k + (if a.build_pc then tripletSum ts k k else 0),
      rhs := fun k => if ofs ≤ k ∧ k < ofs + a.basis_size then local_lhs (k - ofs) else a.rhs k }

/-- Embeds `assembler::finalize()` (part_001 lines 115-134): the same
invalid-state guard; then `lhs` is built from the triplet list (duplicates
summed) and the triplet list is cleared; if `build_pc` is set, the loop over
`pc_temp` asserts `|pc_temp[i]| > 1e-2` for every index (a fatal assertion,
modelled as an error; the threshold `1e-2` is written `mkRat 1 100`) and
pushes the diagonal reciprocal triplets, from which `pc` is built; `pc_temp`
itself is NOT cleared. -/
def assembler.finalize (a : assembler) : Except String assembler :=
  if a.sys_size = 0 ∨ a.basis_size = 0 then
    .error invalid_state_msg
  else
    let a1 := { a with lhs := init_from_triplets a.triplets, triplets := [] }
    if a.build_pc then
      if ∀ i ∈ List.range a.sys_size, mkRat 1 100 < ratAbs (a.pc_temp i) then
        let pcts := a.pc_triplets ++
          (List.range a.sys_size).map (fun i => (⟨i, i, 1 / a.pc_temp i⟩ : triplet))
        .ok { a1 with pc := init_from_triplets pcts, pc_triplets := [] }
      else
        .error assert_fail_msg
    else
      .ok a1

/-- Projection of an `Except`-valued assembler step: its state on success,
the fallback `d` on error (the C++ object is unchanged when a call throws). -/
def getOkD (e : Except String assembler) (d : assembler) : assembler :=
  (Except.toOption e).getD d

/-- The error message of a failed assembler step, `none` on success. -/
def errMsg (e : Except String assembler) : Option String :=
  match e with
  | .error s => some s
  | .ok _ => none

/-- One local-to-global assembly call, as issued by the element loops of the
solvers: `block` is the two-cell overload (face coupling blocks), `cell` the
one-cell overload (volume block plus local right-hand side). -/
inductive acall where
  | block (cl_a cl_b : Nat) (m : Nat → Nat → ℚ)
  | cell (cl : Nat) (m : Nat → Nat → ℚ) (v : Nat → ℚ)

/-- Dispatch one assembly call on the assembler. -/
def runCall (a : assembler) : acall → Except String assembler
  | .block cl_a cl_b m => assembler.assemble a cl_a cl_b m
  | .cell cl m v => assembler.assemble_cell a cl m v

/-- Run a sequence of assembly calls, stopping at the first error (a thrown
exception propagates out of the assembly loop in the sources). -/
def runCalls (a : assembler) : List acall → Except String assembler
  | [] => .ok a
  | c :: cs =>
    match runCall a c with
    | .error e => .error e
    | .ok a' => runCalls a' cs

/-- The triplets a single assembly call emits, given the basis size. -/
def callTriplets (bs : Nat) : acall → List triplet
  | .block cl_a cl_b m => cellTriplets bs (cl_a * bs) (cl_b * bs) m
  | .cell cl m _ => cellTriplets bs (cl * bs) (cl * bs) m

/-- The triplets a sequence of assembly calls emits, in order. -/
def callsTriplets (bs : Nat) (cs : List acall) : List triplet :=
  cs.flatMap (callTriplets bs)

/-- The `rhs` vector after one assembly call (the `cell` overload overwrites
the block of rows owned by the cell; the `block` overload leaves `rhs`
untouched). -/
def rhsAfter (a : assembler) : acall → (Nat → ℚ)
  | .block _ _ _ => a.rhs
  | .cell cl _ v => fun k =>
      if cl * a.basis_size ≤ k ∧ k < cl * a.basis_size + a.basis_size then
        v (k - cl * a.basis_size)
      else a.rhs k

/-- The assembler state after a sequence of assembly calls (the state is
unchanged if a call throws). -/
def afterCalls (a : assembler) (cs : List acall) : assembler :=
  getOkD (runCalls a cs) a

/-- The assembler state after `finalize` (unchanged if it throws). -/
def afterFinalize (a : assembler) : assembler :=
  getOkD (assembler.finalize a) a

/-
Diffusion solver, symmetric interior penalty (run_diffusion_solver,
part_001 lines 263-354).  The per-face, per-quadrature-point gains of the
local blocks are embedded as functions of the scalar data at the quadrature
point: `w` the quadrature weight, `tphi i` the owner basis values, `tdphin i`
the owner basis normal derivatives `(tdphi*n)[i]`, `nphi j` / `ndphin j` the
same for the neighbour basis, `gD` the Dirichlet datum at the point (the
repository's `data::dirichlet` is identically 0, but the expression applies
the coefficient to it regardless).
-/

/-- Embeds part_001 line 276: `T eta = 3*degree*degree*cfg.eta;`. -/
def diffusion_eta (cfg_eta : ℚ) (degree : Nat) : ℚ :=
  3 * (degree : ℚ) * (degree : ℚ) * cfg_eta

/-- Embeds part_001 line 312: `auto eta_l = eta / diameter(msh, fc);` with
`eta` from `diffusion_eta` — the face penalty coefficient actually applied. -/
def diffusion_eta_l (cfg_eta : ℚ) (degree : Nat) (face_diam : ℚ) : ℚ :=
  diffusion_eta cfg_eta degree / face_diam

/-- Gain of the self block `Att(i,j)` at one interior-face quadrature point
(part_001 lines 323-325). -/
def diff_face_self_interior (w eta_l : ℚ) (tphi tdphin : Nat → ℚ) (i j : Nat) : ℚ :=
  w * eta_l * tphi i * tphi j
    - w * (1/2) * tphi i * tdphin j
    - w * (1/2) * tdphin i * tphi j

/-- Gain of the self block `Att(i,j)` at one boundary-face quadrature point
(part_001 lines 329-331). -/
def diff_face_self_boundary (w eta_l : ℚ) (tphi tdphin : Nat → ℚ) (i j : Nat) : ℚ :=
  w * eta_l * tphi i * tphi j
    - w * tphi i * tdphin j
    - w * tdphin i * tphi j

/-- Gain of the local right-hand side `loc_rhs[i]` at one boundary-face
quadrature point (part_001 lines 333-334): the Dirichlet datum folded into
the right-hand side with the same consistency and penalty coefficients. -/
def diff_face_rhs_boundary (w eta_l gD : ℚ) (tphi tdphin : Nat → ℚ) (i : Nat) : ℚ :=
  -(w * gD * tdphin i) + w * eta_l * gD * tphi i

/-- Gain of the neighbour block `Atn(i,j)` at one interior-face quadrature
point (part_001 lines 341-343). -/
def diff_face_neigh_interior (w eta_l : ℚ) (tphi tdphin nphi ndphin : Nat → ℚ)
    (i j : Nat) : ℚ :=
  -(w * eta_l * tphi i * nphi j)
    - w * (1/2) * tphi i * ndphin j
    + w * (1/2) * tdphin i * nphi j

/-
Advection-reaction solver face terms (run_advection_reaction_solver,
part_000 lines 159-210; part_001 lines 484-536 is identical on boundary
faces and has the upwind coefficient fixed to the centered flux).
-/

/-- Embeds `auto beta_minus = 0.5*(std::abs(beta_nf) - beta_nf);`
(part_000 line 192 / part_001 line 514). -/
def beta_minus (b : ℚ) : ℚ := (1/2) * (|b| - b)

/-- Gains of `(Att(i,j), Atn(i,j))` at one face quadrature point of the
advection-reaction assembly (part_000 lines 178-204): `b` is the normal
advective speed `beta·n` at the point; the numerical-flux coefficient is
`b - eta*|b|` under upwinding and `b` otherwise; on an interior face the self
block loses `0.5*coeff`-weighted mass and the neighbour block gains it; on a
boundary face (`has_neighbour = false`) only the inflow case `b < 0` adds a
`beta_minus`-weighted self coupling, and the `continue` skips everything
else, so `Atn` never changes there. -/
def adv_face_qp_step (has_neighbour use_upwinding : Bool) (eta w b : ℚ)
    (tphi nphi : Nat → ℚ) : (Nat → Nat → ℚ) × (Nat → Nat → ℚ) :=
  let fi_coeff := if use_upwinding then b - eta * |b| else b
  if has_neighbour then
    (fun i j => -(w * (1/2) * fi_coeff * tphi i * tphi j),
     fun i j => w * fi_coeff * (1/2) * tphi i * nphi j)
  else
    (if b < 0 then (fun i j => w * beta_minus b * tphi i * tphi j)
     else (fun _ _ => 0),
     fun _ _ => 0)

/-- Total boundary contribution to the self block over a list of face
quadrature points, each given as a (weight, beta·n) pair. -/
def adv_boundary_att (use_upwinding : Bool) (eta : ℚ) (qps : List (ℚ × ℚ))
    (tphi nphi : Nat → ℚ) (i j : Nat) : ℚ :=
  (qps.map (fun p => (adv_face_qp_step false use_upwinding eta p.1 p.2 tphi nphi).1 i j)).sum

/-
Error / post-processing pass (part_000 lines 231-273; part_001 lines 367-401
and 555-588 are the same computation).  A cell quadrature point is embedded
by its weight, the vector of basis values at the point, and the reference
solution value there; an element by its offset and its quadrature points.
The dense `solve_LU` comes from the external blaze library and is a
parameter of the pass.
-/

/-- One cell quadrature point of the error pass: weight `w`, basis values
`phi`, reference solution value `sv` at the point. -/
structure qpData where
  w : ℚ
  phi : Nat → ℚ
  sv : ℚ

/-- One element of the error pass: its offset and its quadrature points. -/
structure elemData where
  ofs : Nat
  qps : List qpData

/-- Dot product of length-`bs` vectors (blaze `dot` on local vectors). -/
def dotv (bs : Nat) (u v : Nat → ℚ) : ℚ :=
  ((List.range bs).map (fun i => u i * v i)).sum

/-- Matrix-vector product of a `bs × bs` local matrix (blaze `M*v`). -/
def matVec (bs : Nat) (M : Nat → Nat → ℚ) (v : Nat → ℚ) : Nat → ℚ :=
  fun i => dotv bs (M i) v

/-- Embeds `loc_sol[i] = sol[basis_size * ofs + i]` (part_000 lines 239-241):
the element's coefficient block of the global solution vector. -/
def loc_sol (bs ofs : Nat) (sol : Nat → ℚ) : Nat → ℚ :=
  fun i => sol (bs * ofs + i)

/-- One iteration of the quadrature loop of the error pass (part_000 lines
256-268): the state is the running local mass matrix `M`, load vector `a`,
and the global quadrature-point error accumulator; the step adds
`w*phi*phi^t` to `M`, `w*sv*phi` to `a`, and `w*(sv - cv)^2` to the
accumulator, with `cv = dot(loc_sol, phi)`. -/
def qp_loop_step (bs : Nat) (loc : Nat → ℚ)
    (st : (Nat → Nat → ℚ) × (Nat → ℚ) × ℚ) (q : qpData) :
    (Nat → Nat → ℚ) × (Nat → ℚ) × ℚ :=
  (fun i j => st.1 i j + q.w * q.phi i * q.phi j,
   fun i => st.2.1 i + q.w * q.sv * q.phi i,
   st.2.2 + q.w * (q.sv - dotv bs loc q.phi) * (q.sv - dotv bs loc q.phi))

/-- Processing of one element of the error pass (part_000 lines 233-272):
build `loc_sol`, fold the quadrature loop starting from the zero `M`, zero
`a` and the incoming qp-error accumulator, then solve `M*proj = a` with the
external dense solver and add `dot(proj - loc_sol, M*(proj - loc_sol))` to
the mass-matrix error accumulator.  The state is the accumulator pair
`(L2_errsq_qp, L2_errsq_mm)`. -/
def elem_step (bs : Nat) (solve_LU : (Nat → Nat → ℚ) → (Nat → ℚ) → (Nat → ℚ))
    (sol : Nat → ℚ) (st : ℚ × ℚ) (e : elemData) : ℚ × ℚ :=
  let loc := loc_sol bs e.ofs sol
  let r := e.qps.foldl (qp_loop_step bs loc) (fun _ _ => 0, fun _ => 0, st.1)
  let proj := solve_LU r.1 r.2.1
  (r.2.2,
   st.2 + dotv bs (fun i => proj i - loc i) (matVec bs r.1 (fun i => proj i - loc i)))

/-- The whole error pass: both accumulators start at zero (part_000 lines
231-232) and every cell is processed in order; the squared sums are returned
with no square root applied. -/
def error_pass (bs : Nat) (solve_LU : (Nat → Nat → ℚ) → (Nat → ℚ) → (Nat → ℚ))
    (sol : Nat → ℚ) (cls : List elemData) : ℚ × ℚ :=
  cls.foldl (elem_step bs solve_LU sol) (0, 0)

/-- Closed form of the local mass matrix of an element:
`M i j = Σ_qp w * phi i * phi j`. -/
def elemM (e : elemData) : Nat → Nat → ℚ :=
  fun i j => (e.qps.map (fun q => q.w * q.phi i * q.phi j)).sum

/-- Closed form of the local load vector of an element:
`a i = Σ_qp w * sv * phi i`. -/
def elemA (e : elemData) : Nat → ℚ :=
  fun i => (e.qps.map (fun q => q.w * q.sv * q.phi i)).sum

/-- Closed form of the element's quadrature-point error contribution:
`Σ_qp w * (sv - dot(loc_sol, phi))^2`. -/
def qpErr (bs : Nat) (sol : Nat → ℚ) (e : elemData) : ℚ :=
  (e.qps.map (fun q =>
    q.w * (q.sv - dotv bs (loc_sol bs e.ofs sol) q.phi)
        * (q.sv - dotv bs (loc_sol bs e.ofs sol) q.phi))).sum

/-- Closed form of the element's mass-matrix error contribution:
`(proj - loc_sol)^t * M * (proj - loc_sol)` with `proj = solve_LU M a`,
`M = elemM`, `a = elemA`. -/
def mmErr (bs : Nat) (solve_LU : (Nat → Nat → ℚ) → (Nat → ℚ) → (Nat → ℚ))
    (sol : Nat → ℚ) (e : elemData) : ℚ :=
  dotv bs
    (fun i => solve_LU (elemM e) (elemA e) i - loc_sol bs e.ofs sol i)
    (matVec bs (elemM e)
      (fun i => solve_LU (elemM e) (elemA e) i - loc_sol bs e.ofs sol i))

/-
Face-loop prologue of both assembly loops (part_000 lines 165-167, part_001
lines 306-309 and 490-493): `neighbour_via` returns a (handle, exists) pair,
and `make_basis` is invoked on the handle — and its size asserted equal to
the owner basis size — BEFORE the exists flag is ever tested (the flag is
only read inside the quadrature loop).  `make_basis` belongs to the external
bases collaborator (core/bases.hpp, not among the sources) and is modelled as
possibly undefined (`Option`-valued) on the handle returned for a missing
neighbour.
-/

/-- A constructed local basis, exposing its `size()`. -/
structure basisV where
  size : Nat
deriving DecidableEq, Repr

/-- The face-loop prologue: construct the neighbour basis from the handle
`nv.1`, check the size assertion, and only then hand the basis and the
exists flag `nv.2` to the body of the face processing (the quadrature
loop). -/
def face_assembly_step {α : Type} (tbasis_size : Nat)
    (make_basis : Nat → Option basisV) (nv : Nat × Bool)
    (body : basisV → Bool → α) : Option α :=
  match make_basis nv.1 with
  | none => none
  | some nbasis =>
    if tbasis_size = nbasis.size then some (body nbasis nv.2) else none

/-
Concrete assembler states used by the claim witnesses and counterexamples.
Degree 0 on a one-cell mesh: basis size 1, system size 1 — the smallest
initialized assembler (the assembler itself places no lower bound on the
degree; the limit `degree ≥ 1` is enforced only by the CLI of the drivers).
-/

/-- A freshly initialized assembler: one cell, degree 0, preconditioning not
requested. -/
def exm_a0 : assembler := assembler.init assembler.init0 1 0 false

/-- The state after assembling the constant-1 local block on cell 0. -/
def exm_a1 : assembler := getOkD (assembler.assemble exm_a0 0 0 (fun _ _ => 1)) exm_a0

/-- The state after finalizing `exm_a1`. -/
def exm_a2 : assembler := getOkD (assembler.finalize exm_a1) exm_a1

/-- A freshly initialized two-cell degree-0 assembler (basis size 1, system
size 2), used to exercise the local-to-global index mapping. -/
def c4A : assembler := assembler.init assembler.init0 2 0 false

/-- Two assemble calls targeting the same global coordinate (0, 0): the
volume-style and face-style contributions of the triplet-summation test. -/
def c5calls : List acall := [.block 0 0 (fun _ _ => 5), .block 0 0 (fun _ _ => 7)]

/-- The single assembly call of the double-finalize experiment. -/
def dblcalls : List acall := [.block 0 0 (fun _ _ => 5)]

/-- A fresh one-cell degree-0 assembler for the double-finalize experiment. -/
def dbl_a0 : assembler := assembler.init assembler.init0 1 0 false

/-- After assembling the constant-5 local block on cell 0. -/
def dbl_a1 : assembler := getOkD (assembler.assemble dbl_a0 0 0 (fun _ _ => 5)) dbl_a0

/-- After the first finalize. -/
def dbl_a2 : assembler := getOkD (assembler.finalize dbl_a1) dbl_a1

/-- After assembling the same constant-5 local block a second time, with no
reset in between. -/
def dbl_a3 : assembler := getOkD (assembler.assemble dbl_a2 0 0 (fun _ _ => 5)) dbl_a2

/-- After the second finalize. -/
def dbl_a4 : assembler := getOkD (assembler.finalize dbl_a3) dbl_a3

/-
General lemmas about the embedded assembler operations.
-/

/-- The executable absolute value agrees with Mathlib's. -/
theorem ratAbs_eq_abs (x : ℚ) : ratAbs x = |x| := by
  unfold ratAbs
  by_cases h : x < 0
  · rw [if_pos h, abs_of_neg h]
  · rw [if_neg h, abs_of_nonneg (not_lt.mp h)]

theorem tripletSum_nil (r c : Nat) : tripletSum [] r c = 0 := rfl

theorem tripletSum_append (xs ys : List triplet) (r c : Nat) :
    tripletSum (xs ++ ys) r c = tripletSum xs r c + tripletSum ys r c := by
  unfold tripletSum
  rw [List.filter_append, List.map_append, List.sum_append]

theorem tripletSum_cons (t : triplet) (ts : List triplet) (r c : Nat) :
    tripletSum (t :: ts) r c
      = (if t.row = r ∧ t.col = c then t.val else 0) + tripletSum ts r c := by
  unfold tripletSum
  rw [List.filter_cons]
  by_cases h : t.row = r ∧ t.col = c
  · simp [h]
  · have hb : (t.row == r && t.col == c) = false := by
      simp only [Bool.and_eq_false_iff, beq_eq_false_iff_ne, ne_eq]
      omega
    simp [hb, h]

theorem tripletSum_eq_zero (ts : List triplet) (r c : Nat)
    (h : ∀ t ∈ ts, ¬(t.row = r ∧ t.col = c)) : tripletSum ts r c = 0 := by
  induction ts with
  | nil => rfl
  | cons t ts ih =>
    rw [tripletSum_cons, if_neg (h t (by simp)), ih (fun x hx => h x (by simp [hx])), add_zero]

theorem tripletSum_flatMap {β : Type} (f : β → List triplet) (cs : List β) (r c : Nat) :
    tripletSum (cs.flatMap f) r c = (cs.map (fun x => tripletSum (f x) r c)).sum := by
  induction cs with
  | nil => rfl
  | cons x xs ih =>
    rw [List.flatMap_cons, tripletSum_append, List.map_cons, List.sum_cons, ih]

theorem tripletSum_diag_map (n : Nat) (f : Nat → ℚ) (i : Nat) (hi : i < n) :
    tripletSum ((List.range n).map (fun k => (⟨k, k, f k⟩ : triplet))) i i = f i := by
  induction n with
  | zero => omega
  | succ n ih =>
    rw [List.range_succ, List.map_append, tripletSum_append]
    by_cases h : i < n
    · rw [ih h]
      simp [tripletSum_cons, tripletSum_nil]
      intro he
      omega
    · have hin : i = n := by omega
      subst hin
      rw [tripletSum_eq_zero _ _ _ (by
        intro t ht
        simp only [List.mem_map, List.mem_range] at ht
        obtain ⟨k, hk, rfl⟩ := ht
        simp only [not_and]
        intro hr
        omega), zero_add]
      rw [show (List.map (fun k => (⟨k, k, f k⟩ : triplet)) [i]) = [⟨i, i, f i⟩] from rfl]
      rw [tripletSum_cons, tripletSum_nil, if_pos ⟨rfl, rfl⟩, add_zero]

theorem flatMap_range_length (f : Nat → List triplet) (bs n : Nat)
    (hlen : ∀ i, (f i).length = bs) :
    ((List.range n).flatMap f).length = n * bs := by
  induction n with
  | zero => simp
  | succ n ih =>
    rw [List.range_succ, List.flatMap_append, List.length_append, ih]
    simp [hlen, Nat.succ_mul]

theorem flatMap_range_getElem (f : Nat → List triplet) (bs n i j : Nat)
    (hlen : ∀ i, (f i).length = bs) (hi : i < n) (hj : j < bs) :
    ((List.range n).flatMap f)[i * bs + j]? = (f i)[j]? := by
  induction n with
  | zero => omega
  | succ n ih =>
    rw [List.range_succ, List.flatMap_append]
    by_cases h : i < n
    · rw [List.getElem?_append]
      rw [if_pos]
      · exact ih h
      · rw [flatMap_range_length f bs n hlen]
        have h1 : i * bs + j < i * bs + bs := by omega
        have h2 : i * bs + bs = (i + 1) * bs := by ring
        have h3 : (i + 1) * bs ≤ n * bs := Nat.mul_le_mul_right bs (by omega)
        omega
    · have hin : i = n := by omega
      rw [List.getElem?_append_right]
      · rw [flatMap_range_length f bs n hlen, hin]
        have h4 : n * bs + j - n * bs = j := by omega
        rw [h4]
        simp
      · rw [flatMap_range_length f bs n hlen, hin]
        omega

theorem cellTriplets_length (bs ofs_a ofs_b : Nat) (m : Nat → Nat → ℚ) :
    (cellTriplets bs ofs_a ofs_b m).length = bs * bs := by
  unfold cellTriplets
  exact flatMap_range_length _ bs bs (fun i => by simp)

theorem cellTriplets_getElem (bs ofs_a ofs_b : Nat) (m : Nat → Nat → ℚ) (i j : Nat)
    (hi : i < bs) (hj : j < bs) :
    (cellTriplets bs ofs_a ofs_b m)[i * bs + j]?
      = some ⟨ofs_a + i, ofs_b + j, m i j⟩ := by
  unfold cellTriplets
  rw [flatMap_range_getElem _ bs bs i j (fun i => by simp) hi hj]
  rw [List.getElem?_map, List.getElem?_range hj]
  rfl

theorem assemble_ok (a : assembler) (cl_a cl_b : Nat) (m : Nat → Nat → ℚ)
    (h1 : a.sys_size ≠ 0) (h2 : a.basis_size ≠ 0) :
    assembler.assemble a cl_a cl_b m = .ok { a with
      triplets := a.triplets
        ++ cellTriplets a.basis_size (cl_a * a.basis_size) (cl_b * a.basis_size) m,
      pc_temp := fun k => a.pc_temp k +
        (if a.build_pc then
          tripletSum (cellTriplets a.basis_size (cl_a * a.basis_size) (cl_b * a.basis_size) m) k k
         else 0) } := by
  unfold assembler.assemble
  rw [if_neg (by simp [h1, h2])]

theorem assemble_cell_ok (a : assembler) (cl : Nat) (m : Nat → Nat → ℚ) (v : Nat → ℚ)
    (h1 : a.sys_size ≠ 0) (h2 : a.basis_size ≠ 0) :
    assembler.assemble_cell a cl m v = .ok { a with
      triplets := a.triplets
        ++ cellTriplets a.basis_size (cl * a.basis_size) (cl * a.basis_size) m,
      pc_temp := fun k => a.pc_temp k +
        (if a.build_pc then
          tripletSum (cellTriplets a.basis_size (cl * a.basis_size) (cl * a.basis_size) m) k k
         else 0),
      rhs := rhsAfter a (.cell cl m v) } := by
  unfold assembler.assemble_cell rhsAfter
  rw [if_neg (by simp [h1, h2])]

theorem runCall_ok (a : assembler) (c : acall)
    (h1 : a.sys_size ≠ 0) (h2 : a.basis_size ≠ 0) :
    runCall a c = .ok { a with
      triplets := a.triplets ++ callTriplets a.basis_size c,
      pc_temp := fun k => a.pc_temp k +
        (if a.build_pc then tripletSum (callTriplets a.basis_size c) k k else 0),
      rhs := rhsAfter a c } := by
  cases c with
  | block cl_a cl_b m =>
    rw [show runCall a (.block cl_a cl_b m) = assembler.assemble a cl_a cl_b m from rfl,
        assemble_ok a cl_a cl_b m h1 h2]
    rfl
  | cell cl m v =>
    rw [show runCall a (.cell cl m v) = assembler.assemble_cell a cl m v from rfl,
        assemble_cell_ok a cl m v h1 h2]
    rfl

theorem runCalls_spec (cs : List acall) (a : assembler)
    (h1 : a.sys_size ≠ 0) (h2 : a.basis_size ≠ 0) :
    ∃ a', runCalls a cs = .ok a'
      ∧ a'.sys_size = a.sys_size
      ∧ a'.basis_size = a.basis_size
      ∧ a'.build_pc = a.build_pc
      ∧ a'.pc_triplets = a.pc_triplets
      ∧ a'.lhs = a.lhs
      ∧ a'.triplets = a.triplets ++ callsTriplets a.basis_size cs
      ∧ (∀ k, a'.pc_temp k = a.pc_temp k +
          (if a.build_pc then tripletSum (callsTriplets a.basis_size cs) k k else 0)) := by
  induction cs generalizing a with
  | nil =>
    refine ⟨a, rfl, rfl, rfl, rfl, rfl, rfl, by simp [callsTriplets], ?_⟩
    intro k
    simp [callsTriplets, tripletSum]
  | cons c cs ih =>
    rw [show runCalls a (c :: cs) = (match runCall a c with
      | .error e => .error e
      | .ok a' => runCalls a' cs) from rfl]
    rw [runCall_ok a c h1 h2]
    obtain ⟨a', hrun, hs, hb, hbp, hpct, hlhs, htr, hpc⟩ :=
      ih { a with
        triplets := a.triplets ++ callTriplets a.basis_size c,
        pc_temp := fun k => a.pc_temp k +
          (if a.build_pc then tripletSum (callTriplets a.basis_size c) k k else 0),
        rhs := rhsAfter a c } (by simpa using h1) (by simpa using h2)
    refine ⟨a', hrun, by simpa using hs, by simpa using hb, by simpa using hbp,
      by simpa using hpct, by simpa using hlhs, ?_, ?_⟩
    · rw [htr]
      show (a.triplets ++ callTriplets a.basis_size c) ++ callsTriplets a.basis_size cs
        = a.triplets ++ callsTriplets a.basis_size (c :: cs)
      rw [List.append_assoc]
      unfold callsTriplets
      rw [List.flatMap_cons]
    · intro k
      rw [hpc k]
      show (a.pc_temp k + _) + _ = a.pc_temp k + _
      unfold callsTriplets
      rw [List.flatMap_cons, tripletSum_append]
      by_cases hb' : a.build_pc
      · simp only [hb', if_true]
        ring
      · simp [hb']

theorem finalize_build_pc_eq (a : assembler)
    (h1 : a.sys_size ≠ 0) (h2 : a.basis_size ≠ 0) (h3 : a.build_pc = true)
    (hall : ∀ i ∈ List.range a.sys_size, mkRat 1 100 < ratAbs (a.pc_temp i)) :
    assembler.finalize a = .ok { a with
      lhs := init_from_triplets a.triplets,
      triplets := [],
      pc := init_from_triplets (a.pc_triplets ++
        (List.range a.sys_size).map (fun i => (⟨i, i, 1 / a.pc_temp i⟩ : triplet))),
      pc_triplets := [] } := by
  unfold assembler.finalize
  rw [if_neg (by simp [h1, h2]), if_pos h3, if_pos hall]

theorem finalize_assert_fail (a : assembler)
    (h1 : a.sys_size ≠ 0) (h2 : a.basis_size ≠ 0) (h3 : a.build_pc = true)
    (i : Nat) (hi : i < a.sys_size) (hsmall : ratAbs (a.pc_temp i) ≤ mkRat 1 100) :
    assembler.finalize a = .error assert_fail_msg := by
  unfold assembler.finalize
  rw [if_neg (by simp [h1, h2]), if_pos h3, if_neg]
  intro hall
  exact absurd (hall i (List.mem_range.mpr hi)) (not_lt.mpr hsmall)

theorem finalize_isOk_spec (a : assembler)
    (hok : (assembler.finalize a).isOk = true) :
    a.sys_size ≠ 0 ∧ a.basis_size ≠ 0
  ∧ (afterFinalize a).lhs = init_from_triplets a.triplets
  ∧ (afterFinalize a).triplets = []
  ∧ (afterFinalize a).sys_size = a.sys_size
  ∧ (afterFinalize a).basis_size = a.basis_size
  ∧ (afterFinalize a).pc_temp = a.pc_temp
  ∧ (afterFinalize a).build_pc = a.build_pc := by
  unfold afterFinalize
  by_cases hsz : a.sys_size = 0 ∨ a.basis_size = 0
  · rw [show assembler.finalize a = .error invalid_state_msg from by
      unfold assembler.finalize; rw [if_pos hsz]] at hok
    simp [Except.toBool] at hok
  · have h1 : a.sys_size ≠ 0 := fun h => hsz (Or.inl h)
    have h2 : a.basis_size ≠ 0 := fun h => hsz (Or.inr h)
    refine ⟨h1, h2, ?_⟩
    by_cases hbp : a.build_pc = true
    · by_cases hall : ∀ i ∈ List.range a.sys_size, mkRat 1 100 < ratAbs (a.pc_temp i)
      · rw [finalize_build_pc_eq a h1 h2 hbp hall]
        simp [getOkD, Except.toOption]
      · rw [show assembler.finalize a = .error assert_fail_msg from by
          unfold assembler.finalize
          rw [if_neg hsz, if_pos hbp, if_neg hall]] at hok
        simp [Except.toBool] at hok
    · rw [show assembler.finalize a = .ok { a with
          lhs := init_from_triplets a.triplets, triplets := [] } from by
        unfold assembler.finalize
        rw [if_neg hsz, if_neg hbp]]
      simp [getOkD, Except.toOption]


theorem getOkD_ok (x d : assembler) : getOkD (.ok x) d = x := rfl

theorem exm_a1_pc_temp : exm_a1.pc_temp 0 = 1 := by
  show (0:ℚ) + (if true = true then tripletSum [⟨0, 0, 1⟩] 0 0 else 0) = 1
  simp [tripletSum]

theorem exm_a1_hall :
    ∀ i ∈ List.range exm_a1.sys_size, mkRat 1 100 < ratAbs (exm_a1.pc_temp i) := by
  intro i hi
  have hs : exm_a1.sys_size = 1 := rfl
  rw [hs, List.mem_range] at hi
  have hi0 : i = 0 := by omega
  rw [hi0, exm_a1_pc_temp]
  decide

theorem exm_finalize_eq :
    assembler.finalize exm_a1 = .ok { exm_a1 with
      lhs := init_from_triplets exm_a1.triplets,
      triplets := [],
      pc := init_from_triplets (exm_a1.pc_triplets ++
        (List.range exm_a1.sys_size).map (fun i => (⟨i, i, 1 / exm_a1.pc_temp i⟩ : triplet))),
      pc_triplets := [] } :=
  finalize_build_pc_eq exm_a1 (by decide) (by decide) rfl exm_a1_hall

/-- C1 (amended): calling either `assemble` overload on an uninitialized
(default-constructed) assembler fails with the invalid-argument error, which
in the source is thrown before any mutation, so the triplet list, the
right-hand side and the preconditioner buffer stay untouched; after
`finalize()`, however, the assembler is NOT invalidated (`sys_size` and
`basis_size` keep their nonzero values), so a subsequent `assemble` call is
accepted rather than rejected. -/
theorem C1_invalid_state (a b : assembler) (cl_a cl_b cl : Nat)
    (m : Nat → Nat → ℚ) (v : Nat → ℚ)
    (h : a.sys_size = 0 ∨ a.basis_size = 0)
    (hfin : (assembler.finalize b).isOk = true) :
    errMsg (assembler.assemble a cl_a cl_b m) = some invalid_state_msg
  ∧ errMsg (assembler.assemble_cell a cl m v) = some invalid_state_msg
  ∧ (assembler.assemble (afterFinalize b) cl_a cl_b m).isOk = true := by
  obtain ⟨h1, h2, _, _, hs, hb, _, _⟩ := finalize_isOk_spec b hfin
  refine ⟨?_, ?_, ?_⟩
  · unfold assembler.assemble
    rw [if_pos h]
    rfl
  · unfold assembler.assemble_cell
    rw [if_pos h]
    rfl
  · have hcond : ¬((afterFinalize b).sys_size = 0 ∨ (afterFinalize b).basis_size = 0) := by
      rw [hs, hb]
      simp [h1, h2]
    unfold assembler.assemble
    rw [if_neg hcond]
    rfl

/-- Witness for C1: the concrete uninitialized assembler is rejected by both
overloads, and the concrete finalized one-cell assembler accepts a further
call. -/
theorem C1_witness :
    (assembler.init0.sys_size = 0 ∨ assembler.init0.basis_size = 0)
  ∧ (assembler.finalize exm_a1).isOk = true
  ∧ (errMsg (assembler.assemble assembler.init0 0 0 (fun _ _ => 1)) = some invalid_state_msg
     ∧ errMsg (assembler.assemble_cell assembler.init0 0 (fun _ _ => 1) (fun _ => 1))
         = some invalid_state_msg
     ∧ (assembler.assemble (afterFinalize exm_a1) 0 0 (fun _ _ => 1)).isOk = true) :=
  ⟨Or.inl rfl, by rw [exm_finalize_eq]; rfl,
   C1_invalid_state assembler.init0 exm_a1 0 0 0 (fun _ _ => 1) (fun _ => 1)
     (Or.inl rfl) (by rw [exm_finalize_eq]; rfl)⟩

/-- Counterexample to C1 as stated: after `finalize()` succeeds on a one-cell
assembler, a further `assemble` call does NOT fail with an invalid-state
error — it is accepted (`finalize` never resets `sys_size` or `basis_size`,
which is all the guard inspects). -/
theorem C1_counterexample :
    (assembler.finalize exm_a1).isOk = true
  ∧ errMsg (assembler.assemble exm_a2 0 0 (fun _ _ => 1)) = none
  ∧ (assembler.assemble exm_a2 0 0 (fun _ _ => 1)).isOk = true := by
  have h2 : exm_a2 = { exm_a1 with
      lhs := init_from_triplets exm_a1.triplets,
      triplets := [],
      pc := init_from_triplets (exm_a1.pc_triplets ++
        (List.range exm_a1.sys_size).map (fun i => (⟨i, i, 1 / exm_a1.pc_temp i⟩ : triplet))),
      pc_triplets := [] } := by
    unfold exm_a2
    rw [exm_finalize_eq]
    rfl
  refine ⟨by rw [exm_finalize_eq]; rfl, ?_, ?_⟩ <;>
    rw [h2] <;>
    rfl

/-- C2 (code-bug evaluation): an assembler initialized with the
preconditioning flag `bpc = false` nevertheless has `build_pc = true`
(part_001 line 54 assigns `true` unconditionally, ignoring `bpc`), and a
single assemble call of a constant-5 block accumulates 5 into the running
diagonal preconditioner buffer `pc_temp[0]` — the claim says no accumulation
may happen when preconditioning was not requested at construction. -/
theorem C2_bug_eval :
    (assembler.init assembler.init0 1 0 false).build_pc = true
  ∧ (getOkD (assembler.assemble (assembler.init assembler.init0 1 0 false) 0 0 (fun _ _ => 5))
      (assembler.init assembler.init0 1 0 false)).pc_temp 0 = 5 := by
  refine ⟨rfl, ?_⟩
  show (0:ℚ) + (if true = true then tripletSum [⟨0, 0, 5⟩] 0 0 else 0) = 5
  simp [tripletSum]

/-- C4: on an initialized assembler, one `assemble(msh, cl_a, cl_b, block)`
call succeeds and appends exactly one triplet per index pair (i, j), the
(i*basis_size + j)-th emitted entry carrying global row
`offset(cl_a)*basis_size + i`, global column `offset(cl_b)*basis_size + j`
and value `block(i, j)`; and `initialize` sizes the global system as
`N = basis_size * num_cells`. -/
theorem C4_assemble_mapping (a : assembler) (cl_a cl_b : Nat) (m : Nat → Nat → ℚ)
    (i j num_cells degree : Nat) (bpc : Bool)
    (h1 : a.sys_size ≠ 0) (h2 : a.basis_size ≠ 0)
    (hi : i < a.basis_size) (hj : j < a.basis_size) :
    (assembler.assemble a cl_a cl_b m).isOk = true
  ∧ (getOkD (assembler.assemble a cl_a cl_b m) a).triplets
      = a.triplets ++ cellTriplets a.basis_size (cl_a * a.basis_size) (cl_b * a.basis_size) m
  ∧ (cellTriplets a.basis_size (cl_a * a.basis_size) (cl_b * a.basis_size) m).length
      = a.basis_size * a.basis_size
  ∧ (cellTriplets a.basis_size (cl_a * a.basis_size) (cl_b * a.basis_size) m)[i * a.basis_size + j]?
      = some ⟨cl_a * a.basis_size + i, cl_b * a.basis_size + j, m i j⟩
  ∧ (assembler.init assembler.init0 num_cells degree bpc).sys_size
      = scalar_basis_size degree 2 * num_cells := by
  rw [assemble_ok a cl_a cl_b m h1 h2]
  exact ⟨rfl, rfl, cellTriplets_length _ _ _ _,
    cellTriplets_getElem _ _ _ _ _ _ hi hj, rfl⟩

/-- Witness for C4: the two-cell basis-size-1 assembler maps the block of the
(0, 1) cell pair to the single global entry (0, 1). -/
theorem C4_witness :
    c4A.sys_size ≠ 0 ∧ c4A.basis_size ≠ 0 ∧ 0 < c4A.basis_size
  ∧ ((assembler.assemble c4A 0 1 (fun _ _ => 5)).isOk = true
     ∧ (getOkD (assembler.assemble c4A 0 1 (fun _ _ => 5)) c4A).triplets
         = c4A.triplets
           ++ cellTriplets c4A.basis_size (0 * c4A.basis_size) (1 * c4A.basis_size) (fun _ _ => 5)
     ∧ (cellTriplets c4A.basis_size (0 * c4A.basis_size) (1 * c4A.basis_size)
         (fun _ _ => 5)).length = c4A.basis_size * c4A.basis_size
     ∧ (cellTriplets c4A.basis_size (0 * c4A.basis_size) (1 * c4A.basis_size)
         (fun _ _ => 5))[0 * c4A.basis_size + 0]?
         = some ⟨0 * c4A.basis_size + 0, 1 * c4A.basis_size + 0, 5⟩
     ∧ (assembler.init assembler.init0 2 0 false).sys_size = scalar_basis_size 0 2 * 2) :=
  ⟨by decide, by decide, by decide,
   C4_assemble_mapping c4A 0 1 (fun _ _ => 5) 0 0 2 0 false
     (by decide) (by decide) (by decide) (by decide)⟩

/-- C5: over any sequence of assemble calls on a freshly initialized
assembler followed by a successful `finalize()`, each entry of the finalized
sparse matrix equals the sum of the triplet values emitted at that
coordinate across all the calls: coinciding coordinates are summed, never
overwritten. -/
theorem C5_triplet_summation (a : assembler) (cs : List acall) (r c : Nat)
    (h1 : a.sys_size ≠ 0) (h2 : a.basis_size ≠ 0) (h3 : a.triplets = [])
    (hfin : (assembler.finalize (afterCalls a cs)).isOk = true) :
    (runCalls a cs).isOk = true
  ∧ (afterFinalize (afterCalls a cs)).lhs r c
      = (cs.map (fun call => tripletSum (callTriplets a.basis_size call) r c)).sum := by
  obtain ⟨a', hrun, hs, hb, _, _, _, htr, _⟩ := runCalls_spec cs a h1 h2
  have hA : afterCalls a cs = a' := by
    unfold afterCalls
    rw [hrun]
    rfl
  rw [hA] at hfin ⊢
  obtain ⟨_, _, hlhs, _, _, _, _, _⟩ := finalize_isOk_spec a' hfin
  refine ⟨by rw [hrun]; rfl, ?_⟩
  rw [hlhs]
  unfold init_from_triplets
  rw [htr, h3, List.nil_append]
  unfold callsTriplets
  rw [tripletSum_flatMap]

theorem c5_pc_temp : (afterCalls exm_a0 c5calls).pc_temp 0 = 12 := by
  show ((0:ℚ) + (if true = true then tripletSum [⟨0, 0, 5⟩] 0 0 else 0))
     + (if true = true then tripletSum [⟨0, 0, 7⟩] 0 0 else 0) = 12
  simp [tripletSum]
  norm_num

theorem c5_finalize_eq :
    assembler.finalize (afterCalls exm_a0 c5calls) = .ok { afterCalls exm_a0 c5calls with
      lhs := init_from_triplets (afterCalls exm_a0 c5calls).triplets,
      triplets := [],
      pc := init_from_triplets ((afterCalls exm_a0 c5calls).pc_triplets ++
        (List.range (afterCalls exm_a0 c5calls).sys_size).map
          (fun i => (⟨i, i, 1 / (afterCalls exm_a0 c5calls).pc_temp i⟩ : triplet))),
      pc_triplets := [] } := by
  apply finalize_build_pc_eq (afterCalls exm_a0 c5calls) (by decide) (by decide) rfl
  intro i hi
  have hs : (afterCalls exm_a0 c5calls).sys_size = 1 := rfl
  rw [hs, List.mem_range] at hi
  have hi0 : i = 0 := by omega
  rw [hi0, c5_pc_temp]
  decide

/-- Witness for C5: two calls both hitting global coordinate (0, 0) with
values 5 and 7 produce the finalized entry 12 = 5 + 7. -/
theorem C5_witness :
    exm_a0.sys_size ≠ 0 ∧ exm_a0.basis_size ≠ 0 ∧ exm_a0.triplets = []
  ∧ (assembler.finalize (afterCalls exm_a0 c5calls)).isOk = true
  ∧ ((runCalls exm_a0 c5calls).isOk = true
     ∧ (afterFinalize (afterCalls exm_a0 c5calls)).lhs 0 0
         = (c5calls.map (fun call => tripletSum (callTriplets exm_a0.basis_size call) 0 0)).sum)
  ∧ (c5calls.map (fun call => tripletSum (callTriplets exm_a0.basis_size call) 0 0)).sum = 12 :=
  ⟨by decide, by decide, rfl, by rw [c5_finalize_eq]; rfl,
   C5_triplet_summation exm_a0 c5calls 0 0 (by decide) (by decide) rfl
     (by rw [c5_finalize_eq]; rfl),
   by
     show ([tripletSum [⟨0, 0, 5⟩] 0 0, tripletSum [⟨0, 0, 7⟩] 0 0] : List ℚ).sum = 12
     simp [tripletSum]
     norm_num⟩

/-- C6: when `finalize()` runs with preconditioning active, either every
accumulated diagonal sum exceeds the 1e-2 threshold in magnitude — and then
the built diagonal preconditioner's i-th diagonal entry is the exact
reciprocal `1 / pc_temp[i]` — or some accumulated diagonal sum has near-zero
magnitude (|pc_temp[k]| ≤ 1e-2) and `finalize` fails with the fatal
assertion instead of producing a zero or infinite entry. -/
theorem C6_preconditioner (a : assembler) (i : Nat)
    (h1 : a.sys_size ≠ 0) (h2 : a.basis_size ≠ 0) (h3 : a.build_pc = true)
    (h4 : a.pc_triplets = []) (hi : i < a.sys_size) :
    ((∀ k ∈ List.range a.sys_size, mkRat 1 100 < ratAbs (a.pc_temp k)) →
      (assembler.finalize a).isOk = true
      ∧ (afterFinalize a).pc i i = 1 / a.pc_temp i)
  ∧ (∀ k, k < a.sys_size → ratAbs (a.pc_temp k) ≤ mkRat 1 100 →
      errMsg (assembler.finalize a) = some assert_fail_msg) := by
  constructor
  · intro hall
    unfold afterFinalize
    rw [finalize_build_pc_eq a h1 h2 h3 hall]
    refine ⟨rfl, ?_⟩
    rw [getOkD_ok]
    show init_from_triplets (a.pc_triplets ++
      (List.range a.sys_size).map (fun k => (⟨k, k, 1 / a.pc_temp k⟩ : triplet))) i i = _
    rw [h4, List.nil_append]
    unfold init_from_triplets
    exact tripletSum_diag_map a.sys_size (fun k => 1 / a.pc_temp k) i hi
  · intro k hk hsmall
    rw [finalize_assert_fail a h1 h2 h3 k hk hsmall]
    rfl

/-- Witness for C6: the one-cell assembler with diagonal sum 1 finalizes to
the preconditioner entry 1/1 = 1, and the fresh assembler with all-zero
diagonal sums dies on the assertion. -/
theorem C6_witness :
    ((assembler.finalize exm_a1).isOk = true
     ∧ (afterFinalize exm_a1).pc 0 0 = 1 / exm_a1.pc_temp 0)
  ∧ errMsg (assembler.finalize exm_a0) = some assert_fail_msg
  ∧ 1 / exm_a1.pc_temp 0 = 1 :=
  ⟨(C6_preconditioner exm_a1 0 (by decide) (by decide) rfl rfl (by decide)).1 exm_a1_hall,
   (C6_preconditioner exm_a0 0 (by decide) (by decide) rfl rfl (by decide)).2 0
     (by decide) (by decide),
   by rw [exm_a1_pc_temp]; norm_num⟩

/-- C8 (amended): re-running the same assembly calls and finalizing a second
time, without any reset, is NOT rejected: `finalize` leaves the assembler
initialized and clears the triplet list, so the second round deterministically
rebuilds the matrix from only its own triplets and yields the SAME matrix as
the first round (not a doubled one), while the diagonal preconditioner buffer
`pc_temp`, which `finalize` does not clear, does double-accumulate. -/
theorem C8_double_finalize (a : assembler) (cs : List acall) (r c k : Nat)
    (h1 : a.sys_size ≠ 0) (h2 : a.basis_size ≠ 0)
    (h3 : a.triplets = []) (h4 : ∀ x, a.pc_temp x = 0)
    (h5 : a.build_pc = true)
    (hdiag : ∀ x ∈ List.range a.sys_size,
      mkRat 1 100 < ratAbs (tripletSum (callsTriplets a.basis_size cs) x x)) :
    (runCalls a cs).isOk = true
  ∧ (assembler.finalize (afterCalls a cs)).isOk = true
  ∧ (runCalls (afterFinalize (afterCalls a cs)) cs).isOk = true
  ∧ (assembler.finalize (afterCalls (afterFinalize (afterCalls a cs)) cs)).isOk = true
  ∧ (afterFinalize (afterCalls (afterFinalize (afterCalls a cs)) cs)).lhs r c
      = (afterFinalize (afterCalls a cs)).lhs r c
  ∧ (afterCalls (afterFinalize (afterCalls a cs)) cs).pc_temp k
      = 2 * (afterCalls a cs).pc_temp k := by
  obtain ⟨a1, hrun1, hs1, hb1, hbp1, hpct1, _, htr1, hpc1⟩ := runCalls_spec cs a h1 h2
  have hA1 : afterCalls a cs = a1 := by
    unfold afterCalls
    rw [hrun1]
    rfl
  have hpcA1 : ∀ x, a1.pc_temp x = tripletSum (callsTriplets a.basis_size cs) x x := by
    intro x
    rw [hpc1 x, h4 x, h5]
    simp
  have h1s : a1.sys_size ≠ 0 := by rw [hs1]; exact h1
  have h1b : a1.basis_size ≠ 0 := by rw [hb1]; exact h2
  have h1bp : a1.build_pc = true := by rw [hbp1]; exact h5
  have hall1 : ∀ x ∈ List.range a1.sys_size, mkRat 1 100 < ratAbs (a1.pc_temp x) := by
    intro x hx
    rw [hpcA1 x]
    rw [hs1] at hx
    exact hdiag x hx
  have hfin1 := finalize_build_pc_eq a1 h1s h1b h1bp hall1
  have hA2 : afterFinalize a1 = { a1 with
      lhs := init_from_triplets a1.triplets,
      triplets := [],
      pc := init_from_triplets (a1.pc_triplets ++
        (List.range a1.sys_size).map (fun i => (⟨i, i, 1 / a1.pc_temp i⟩ : triplet))),
      pc_triplets := [] } := by
    unfold afterFinalize
    rw [hfin1]
    rfl
  obtain ⟨a3, hrun3, hs3, hb3, hbp3, hpct3, _, htr3, hpc3⟩ :=
    runCalls_spec cs (afterFinalize a1) (by rw [hA2]; exact h1s) (by rw [hA2]; exact h1b)
  have hA3 : afterCalls (afterFinalize a1) cs = a3 := by
    unfold afterCalls
    rw [hrun3]
    rfl
  have hbs2 : (afterFinalize a1).basis_size = a.basis_size := by rw [hA2]; exact hb1
  have hbp2 : (afterFinalize a1).build_pc = true := by rw [hA2]; exact h1bp
  have hpt2 : ∀ x, (afterFinalize a1).pc_temp x = a1.pc_temp x := by
    intro x
    rw [hA2]
  have hpcA3 : ∀ x, a3.pc_temp x = 2 * tripletSum (callsTriplets a.basis_size cs) x x := by
    intro x
    rw [hpc3 x, hpt2 x, hpcA1 x, hbp2, hbs2]
    simp
    ring
  have h3s : a3.sys_size ≠ 0 := by rw [hs3, hA2]; exact h1s
  have h3b : a3.basis_size ≠ 0 := by rw [hb3, hA2]; exact h1b
  have h3bp : a3.build_pc = true := by rw [hbp3]; exact hbp2
  have hsys3 : a3.sys_size = a.sys_size := by
    rw [hs3, hA2]
    exact hs1
  have hall3 : ∀ x ∈ List.range a3.sys_size, mkRat 1 100 < ratAbs (a3.pc_temp x) := by
    intro x hx
    rw [hsys3] at hx
    have hd := hdiag x hx
    rw [ratAbs_eq_abs] at hd
    rw [hpcA3 x, ratAbs_eq_abs]
    have habs : |2 * tripletSum (callsTriplets a.basis_size cs) x x|
        = 2 * |tripletSum (callsTriplets a.basis_size cs) x x| := by
      rw [abs_mul]
      norm_num
    rw [habs]
    have hnn : (0:ℚ) ≤ |tripletSum (callsTriplets a.basis_size cs) x x| := abs_nonneg _
    linarith
  have hfin3 := finalize_build_pc_eq a3 h3s h3b h3bp hall3
  have hA4 : afterFinalize a3 = { a3 with
      lhs := init_from_triplets a3.triplets,
      triplets := [],
      pc := init_from_triplets (a3.pc_triplets ++
        (List.range a3.sys_size).map (fun i => (⟨i, i, 1 / a3.pc_temp i⟩ : triplet))),
      pc_triplets := [] } := by
    unfold afterFinalize
    rw [hfin3]
    rfl
  rw [hA1, hA3]
  refine ⟨by rw [hrun1]; rfl, by rw [hfin1]; rfl, ?_, by rw [hfin3]; rfl, ?_, ?_⟩
  · rw [hrun3]
    rfl
  · rw [hA4, hA2]
    show init_from_triplets a3.triplets r c = init_from_triplets a1.triplets r c
    have htre : (afterFinalize a1).triplets = [] := by rw [hA2]
    rw [htr1, h3, htr3, hbs2, htre]
  · rw [hpcA3 k, hpcA1 k]

theorem dbl_a1_pc_temp : dbl_a1.pc_temp 0 = 5 := by
  show (0:ℚ) + (if true = true then tripletSum [⟨0, 0, 5⟩] 0 0 else 0) = 5
  simp [tripletSum]

theorem dbl_a1_hall :
    ∀ i ∈ List.range dbl_a1.sys_size, mkRat 1 100 < ratAbs (dbl_a1.pc_temp i) := by
  intro i hi
  have hs : dbl_a1.sys_size = 1 := rfl
  rw [hs, List.mem_range] at hi
  have hi0 : i = 0 := by omega
  rw [hi0, dbl_a1_pc_temp]
  decide

theorem dbl_a2_eq : dbl_a2 = { dbl_a1 with
    lhs := init_from_triplets dbl_a1.triplets,
    triplets := [],
    pc := init_from_triplets (dbl_a1.pc_triplets ++
      (List.range dbl_a1.sys_size).map (fun i => (⟨i, i, 1 / dbl_a1.pc_temp i⟩ : triplet))),
    pc_triplets := [] } := by
  unfold dbl_a2
  rw [finalize_build_pc_eq dbl_a1 (by decide) (by decide) rfl dbl_a1_hall]
  rfl

theorem dbl_a3_triplets : dbl_a3.triplets = [⟨0, 0, 5⟩] := by
  unfold dbl_a3
  rw [dbl_a2_eq]
  rfl

theorem dbl_a3_pc_temp : dbl_a3.pc_temp 0 = 10 := by
  unfold dbl_a3
  rw [dbl_a2_eq]
  show ((0:ℚ) + (if true = true then tripletSum [⟨0, 0, 5⟩] 0 0 else 0))
     + (if true = true then tripletSum [⟨0, 0, 5⟩] 0 0 else 0) = 10
  simp [tripletSum]
  norm_num

theorem dbl_a3_hall :
    ∀ i ∈ List.range dbl_a3.sys_size, mkRat 1 100 < ratAbs (dbl_a3.pc_temp i) := by
  intro i hi
  have hs : dbl_a3.sys_size = 1 := by
    unfold dbl_a3
    rw [dbl_a2_eq]
    rfl
  rw [hs, List.mem_range] at hi
  have hi0 : i = 0 := by omega
  rw [hi0, dbl_a3_pc_temp]
  decide

theorem dbl_finalize3_eq : assembler.finalize dbl_a3 = .ok { dbl_a3 with
    lhs := init_from_triplets dbl_a3.triplets,
    triplets := [],
    pc := init_from_triplets (dbl_a3.pc_triplets ++
      (List.range dbl_a3.sys_size).map (fun i => (⟨i, i, 1 / dbl_a3.pc_temp i⟩ : triplet))),
    pc_triplets := [] } := by
  apply finalize_build_pc_eq dbl_a3 ?h1 ?h2 ?h3 dbl_a3_hall
  case h1 =>
    unfold dbl_a3
    rw [dbl_a2_eq]
    decide
  case h2 =>
    unfold dbl_a3
    rw [dbl_a2_eq]
    decide
  case h3 =>
    unfold dbl_a3
    rw [dbl_a2_eq]
    rfl

/-- Counterexample to C8 as stated: the second assemble-and-finalize round on
the same assembler is NOT rejected as an invalid state, and the result is NOT
a double-accumulated system either — the rebuilt matrix entry is 5, the same
as after the first round (finalize cleared the triplet list), not 10; only
the preconditioner buffer doubled.  Neither of the two policies the claim
offers holds. -/
theorem C8_counterexample :
    (assembler.assemble dbl_a2 0 0 (fun _ _ => 5)).isOk = true
  ∧ (assembler.finalize dbl_a3).isOk = true
  ∧ dbl_a4.lhs 0 0 = 5
  ∧ dbl_a2.lhs 0 0 = 5
  ∧ ¬(dbl_a4.lhs 0 0 = 2 * dbl_a2.lhs 0 0)
  ∧ dbl_a3.pc_temp 0 = 2 * dbl_a1.pc_temp 0 := by
  have h2lhs : dbl_a2.lhs 0 0 = 5 := by
    rw [dbl_a2_eq]
    show init_from_triplets dbl_a1.triplets 0 0 = 5
    rw [show dbl_a1.triplets = [⟨0, 0, 5⟩] from rfl]
    simp [init_from_triplets, tripletSum]
  have h4lhs : dbl_a4.lhs 0 0 = 5 := by
    unfold dbl_a4
    rw [dbl_finalize3_eq, getOkD_ok]
    show init_from_triplets dbl_a3.triplets 0 0 = 5
    rw [dbl_a3_triplets]
    simp [init_from_triplets, tripletSum]
  refine ⟨?_, ?_, h4lhs, h2lhs, ?_, ?_⟩
  · rw [dbl_a2_eq]
    rfl
  · rw [dbl_finalize3_eq]
    rfl
  · rw [h4lhs, h2lhs]
    norm_num
  · rw [dbl_a3_pc_temp, dbl_a1_pc_temp]
    norm_num

/-- Witness for C8 (amended): the one-cell constant-5 round run twice — both
rounds accepted, matrix entry unchanged, preconditioner buffer doubled. -/
theorem C8_witness :
    dbl_a0.sys_size ≠ 0 ∧ dbl_a0.basis_size ≠ 0 ∧ dbl_a0.triplets = []
  ∧ (∀ x, dbl_a0.pc_temp x = 0) ∧ dbl_a0.build_pc = true
  ∧ (∀ x ∈ List.range dbl_a0.sys_size,
      mkRat 1 100 < ratAbs (tripletSum (callsTriplets dbl_a0.basis_size dblcalls) x x))
  ∧ ((runCalls dbl_a0 dblcalls).isOk = true
     ∧ (assembler.finalize (afterCalls dbl_a0 dblcalls)).isOk = true
     ∧ (runCalls (afterFinalize (afterCalls dbl_a0 dblcalls)) dblcalls).isOk = true
     ∧ (assembler.finalize
         (afterCalls (afterFinalize (afterCalls dbl_a0 dblcalls)) dblcalls)).isOk = true
     ∧ (afterFinalize
         (afterCalls (afterFinalize (afterCalls dbl_a0 dblcalls)) dblcalls)).lhs 0 0
         = (afterFinalize (afterCalls dbl_a0 dblcalls)).lhs 0 0
     ∧ (afterCalls (afterFinalize (afterCalls dbl_a0 dblcalls)) dblcalls).pc_temp 0
         = 2 * (afterCalls dbl_a0 dblcalls).pc_temp 0) := by
  have hdiag : ∀ x ∈ List.range dbl_a0.sys_size,
      mkRat 1 100 < ratAbs (tripletSum (callsTriplets dbl_a0.basis_size dblcalls) x x) := by
    intro x hx
    have hs : dbl_a0.sys_size = 1 := rfl
    rw [hs, List.mem_range] at hx
    have hx0 : x = 0 := by omega
    rw [hx0]
    have h5 : tripletSum (callsTriplets dbl_a0.basis_size dblcalls) 0 0 = 5 := by
      show tripletSum [⟨0, 0, 5⟩] 0 0 = 5
      simp [tripletSum]
    rw [h5]
    decide
  exact ⟨by decide, by decide, rfl, fun x => rfl, rfl, hdiag,
    C8_double_finalize dbl_a0 dblcalls 0 0 0 (by decide) (by decide) rfl (fun x => rfl)
      rfl hdiag⟩

/-- C3 (amended): the face penalty coefficient actually applied in the
penalty terms of the self block (interior and boundary), the neighbour
block, and the Dirichlet right-hand-side terms of the diffusion solver is
`3·η·p²/diam(face)` — the code folds the extra factor 3 into `eta` at
part_001 line 276 — not `η·p²/diam(face)`. -/
theorem C3_penalty_coefficient (cfg_eta face_diam w gD : ℚ) (degree : Nat)
    (tphi tdphin nphi ndphin : Nat → ℚ) (i j : Nat) :
    diffusion_eta_l cfg_eta degree face_diam
      = 3 * cfg_eta * ((degree : ℚ) * degree) / face_diam
  ∧ diff_face_self_interior w (diffusion_eta_l cfg_eta degree face_diam) tphi tdphin i j
      = w * (3 * cfg_eta * ((degree : ℚ) * degree) / face_diam) * tphi i * tphi j
        - w * (1/2) * tphi i * tdphin j - w * (1/2) * tdphin i * tphi j
  ∧ diff_face_self_boundary w (diffusion_eta_l cfg_eta degree face_diam) tphi tdphin i j
      = w * (3 * cfg_eta * ((degree : ℚ) * degree) / face_diam) * tphi i * tphi j
        - w * tphi i * tdphin j - w * tdphin i * tphi j
  ∧ diff_face_neigh_interior w (diffusion_eta_l cfg_eta degree face_diam)
        tphi tdphin nphi ndphin i j
      = -(w * (3 * cfg_eta * ((degree : ℚ) * degree) / face_diam) * tphi i * nphi j)
        - w * (1/2) * tphi i * ndphin j + w * (1/2) * tdphin i * nphi j
  ∧ diff_face_rhs_boundary w (diffusion_eta_l cfg_eta degree face_diam) gD tphi tdphin i
      = -(w * gD * tdphin i)
        + w * (3 * cfg_eta * ((degree : ℚ) * degree) / face_diam) * gD * tphi i := by
  have he : diffusion_eta_l cfg_eta degree face_diam
      = 3 * cfg_eta * ((degree : ℚ) * degree) / face_diam := by
    unfold diffusion_eta_l diffusion_eta
    ring
  refine ⟨he, ?_, ?_, ?_, ?_⟩
  · unfold diff_face_self_interior
    rw [he]
  · unfold diff_face_self_boundary
    rw [he]
  · unfold diff_face_neigh_interior
    rw [he]
  · unfold diff_face_rhs_boundary
    rw [he]

/-- Counterexample to C3 as stated: with `η = 1`, `p = 1`, `diam(face) = 1`
the coefficient the code applies is `3`, not the claimed `η·p²/diam = 1` —
visible both on the raw coefficient and in the penalty term of the self
block at a quadrature point with unit weight and unit basis value. -/
theorem C3_counterexample :
    diffusion_eta_l 1 1 1 ≠ 1 * (((1 : Nat) : ℚ) * ((1 : Nat) : ℚ)) / 1
  ∧ diff_face_self_interior 1 (diffusion_eta_l 1 1 1) (fun _ => 1) (fun _ => 0) 0 0
      ≠ 1 * (1 * (((1 : Nat) : ℚ) * ((1 : Nat) : ℚ)) / 1) * 1 * 1 := by
  constructor
  · unfold diffusion_eta_l diffusion_eta
    norm_num
  · unfold diff_face_self_interior diffusion_eta_l diffusion_eta
    norm_num

/-- C7: at a boundary-face quadrature point of the advection-reaction
assembly, an inflow point (`beta·n < 0`) adds exactly the
`|beta·n|`-weighted mass contribution `w·|beta·n|·φᵢ·φⱼ` to the self block
and nothing to the neighbour block; an outflow point (`beta·n ≥ 0`)
contributes exactly zero to both blocks — hence over any list of pure
outflow boundary quadrature points (a 1-element mesh with outward-pointing
advection on all faces) the total boundary correction is zero. -/
theorem C7_boundary_flux (uw : Bool) (eta w b : ℚ) (tphi nphi : Nat → ℚ) (i j : Nat)
    (qps : List (ℚ × ℚ)) :
    (b < 0 →
      (adv_face_qp_step false uw eta w b tphi nphi).1 i j = w * |b| * tphi i * tphi j
      ∧ (adv_face_qp_step false uw eta w b tphi nphi).2 i j = 0)
  ∧ (0 ≤ b →
      (adv_face_qp_step false uw eta w b tphi nphi).1 i j = 0
      ∧ (adv_face_qp_step false uw eta w b tphi nphi).2 i j = 0)
  ∧ ((∀ p ∈ qps, 0 ≤ p.2) → adv_boundary_att uw eta qps tphi nphi i j = 0) := by
  have hout : ∀ w' b', 0 ≤ b' →
      (adv_face_qp_step false uw eta w' b' tphi nphi).1 i j = 0 := by
    intro w' b' hb
    unfold adv_face_qp_step
    simp only [Bool.false_eq_true, if_false]
    rw [if_neg (not_lt.mpr hb)]
  refine ⟨?_, ?_, ?_⟩
  · intro hb
    constructor
    · unfold adv_face_qp_step
      simp only [Bool.false_eq_true, if_false]
      rw [if_pos hb]
      unfold beta_minus
      rw [abs_of_neg hb]
      ring
    · rfl
  · intro hb
    exact ⟨hout w b hb, rfl⟩
  · intro hpos
    unfold adv_boundary_att
    apply List.sum_eq_zero
    intro x hx
    simp only [List.mem_map] at hx
    obtain ⟨p, hp, rfl⟩ := hx
    exact hout p.1 p.2 (hpos p hp)

/-- Witness for C7: an inflow point with `beta·n = -2` yields the weighted
mass term `|−2| = 2`-scaled, an outflow point with `beta·n = 2` yields zero,
and a two-point pure-outflow face accumulates exactly zero. -/
theorem C7_witness :
    ((-2 : ℚ) < 0
     ∧ (adv_face_qp_step false false 1 1 (-2) (fun _ => 1) (fun _ => 1)).1 0 0
         = 1 * |(-2 : ℚ)| * 1 * 1
     ∧ (adv_face_qp_step false false 1 1 (-2) (fun _ => 1) (fun _ => 1)).2 0 0 = 0)
  ∧ ((0 : ℚ) ≤ 2
     ∧ (adv_face_qp_step false false 1 1 2 (fun _ => 1) (fun _ => 1)).1 0 0 = 0
     ∧ (adv_face_qp_step false false 1 1 2 (fun _ => 1) (fun _ => 1)).2 0 0 = 0)
  ∧ ((∀ p ∈ ([(1, 2), (1, 3)] : List (ℚ × ℚ)), 0 ≤ p.2)
     ∧ adv_boundary_att false 1 [(1, 2), (1, 3)] (fun _ => 1) (fun _ => 1) 0 0 = 0) := by
  have h1 := (C7_boundary_flux false 1 1 (-2) (fun _ => 1) (fun _ => 1) 0 0
    [(1, 2), (1, 3)]).1 (by norm_num)
  have h2 := (C7_boundary_flux false 1 1 2 (fun _ => 1) (fun _ => 1) 0 0
    [(1, 2), (1, 3)]).2.1 (by norm_num)
  have h3 := (C7_boundary_flux false 1 1 2 (fun _ => 1) (fun _ => 1) 0 0
    [(1, 2), (1, 3)]).2.2 (by norm_num)
  exact ⟨⟨by norm_num, h1.1, h1.2⟩, ⟨by norm_num, h2.1, h2.2⟩, ⟨by norm_num, h3⟩⟩

/-- C10: the face-loop prologue of the assembly loops constructs the
neighbour basis from the handle returned by `neighbour_via` — and checks the
size assertion — before the existence flag is ever tested; so when the
external basis constructor is undefined on the handle returned for a missing
neighbour, the whole face processing is undefined even though the flag is
`false`, while a constructor defined on that handle (with matching size)
lets the processing complete and hand the flag to the quadrature loop. -/
theorem C10_neighbour_basis (α : Type) (tsize : Nat)
    (mb mb' : Nat → Option basisV) (nv nv' : Nat × Bool)
    (body : basisV → Bool → α) (nb : basisV)
    (hflag : nv.2 = false) (hnone : mb nv.1 = none)
    (hflag' : nv'.2 = false) (hsome : mb' nv'.1 = some nb) (hsz : tsize = nb.size) :
    face_assembly_step tsize mb nv body = none
  ∧ face_assembly_step tsize mb' nv' body = some (body nb false) := by
  constructor
  · unfold face_assembly_step
    rw [hnone]
  · unfold face_assembly_step
    rw [hsome, hflag']
    show (if tsize = nb.size then some (body nb false) else none) = some (body nb false)
    rw [if_pos hsz]

/-- Witness for C10: with a basis constructor undefined everywhere the face
step on a missing-neighbour face is undefined; with one defined (size 3
matching the owner) the step completes and passes `false` to the body. -/
theorem C10_witness :
    ((0, false) : Nat × Bool).2 = false
  ∧ (fun _ : Nat => (none : Option basisV)) 0 = none
  ∧ (fun _ : Nat => some (⟨3⟩ : basisV)) 0 = some ⟨3⟩
  ∧ 3 = (⟨3⟩ : basisV).size
  ∧ (face_assembly_step 3 (fun _ => none) (0, false) (fun nb _ => nb.size) = none
     ∧ face_assembly_step 3 (fun _ => some ⟨3⟩) (0, false) (fun nb _ => nb.size) = some 3) :=
  ⟨rfl, rfl, rfl, rfl,
   C10_neighbour_basis Nat 3 (fun _ => none) (fun _ => some ⟨3⟩) (0, false) (0, false)
     (fun nb _ => nb.size) ⟨3⟩ rfl rfl rfl rfl rfl⟩

theorem qp_fold_spec (bs : Nat) (loc : Nat → ℚ) (qps : List qpData)
    (M0 : Nat → Nat → ℚ) (a0 : Nat → ℚ) (s0 : ℚ) :
    qps.foldl (qp_loop_step bs loc) (M0, a0, s0)
      = (fun i j => M0 i j + (qps.map (fun q => q.w * q.phi i * q.phi j)).sum,
         fun i => a0 i + (qps.map (fun q => q.w * q.sv * q.phi i)).sum,
         s0 + (qps.map (fun q => q.w * (q.sv - dotv bs loc q.phi)
                 * (q.sv - dotv bs loc q.phi))).sum) := by
  induction qps generalizing M0 a0 s0 with
  | nil =>
    simp
  | cons q qs ih =>
    rw [List.foldl_cons]
    rw [show qp_loop_step bs loc (M0, a0, s0) q
      = (fun i j => M0 i j + q.w * q.phi i * q.phi j,
         fun i => a0 i + q.w * q.sv * q.phi i,
         s0 + q.w * (q.sv - dotv bs loc q.phi) * (q.sv - dotv bs loc q.phi)) from rfl]
    rw [ih]
    refine Prod.ext ?_ (Prod.ext ?_ ?_)
    · funext i j
      simp only [List.map_cons, List.sum_cons]
      ring
    · funext i
      simp only [List.map_cons, List.sum_cons]
      ring
    · simp only [List.map_cons, List.sum_cons]
      ring

theorem elem_step_spec (bs : Nat) (slu : (Nat → Nat → ℚ) → (Nat → ℚ) → (Nat → ℚ))
    (sol : Nat → ℚ) (st : ℚ × ℚ) (e : elemData) :
    elem_step bs slu sol st e = (st.1 + qpErr bs sol e, st.2 + mmErr bs slu sol e) := by
  simp only [elem_step]
  rw [qp_fold_spec]
  have hM : (fun i j => (0:ℚ) + (e.qps.map (fun q => q.w * q.phi i * q.phi j)).sum)
      = elemM e := by
    funext i j
    rw [zero_add]
    rfl
  have hA : (fun i => (0:ℚ) + (e.qps.map (fun q => q.w * q.sv * q.phi i)).sum)
      = elemA e := by
    funext i
    rw [zero_add]
    rfl
  rw [hM, hA]
  rfl

theorem error_pass_fold (bs : Nat) (slu : (Nat → Nat → ℚ) → (Nat → ℚ) → (Nat → ℚ))
    (sol : Nat → ℚ) (cls : List elemData) (st : ℚ × ℚ) :
    cls.foldl (elem_step bs slu sol) st
      = (st.1 + (cls.map (qpErr bs sol)).sum, st.2 + (cls.map (mmErr bs slu sol)).sum) := by
  induction cls generalizing st with
  | nil => simp
  | cons e es ih =>
    rw [List.foldl_cons, elem_step_spec, ih]
    simp only [List.map_cons, List.sum_cons]
    refine Prod.ext ?_ ?_ <;> simp <;> ring

/-- C9: the error pass is exactly the sum, over the elements, of the
per-element squared error gains: processing one element turns the
accumulator pair `(qp, mm)` into `(qp + Σ_q w·(sv − dot(loc_sol, φ))²,
mm + (proj − loc_sol)ᵗ·M·(proj − loc_sol))` where `M = Σ_q w·φ·φᵗ` and
`a = Σ_q w·sv·φ` are assembled from the element's cell quadrature,
`proj = solve_LU M a` is the dense projection solve, and `loc_sol` is the
element's coefficient block of the global solution; the whole pass starting
from `(0, 0)` returns both accumulators as the plain sums of these squared
gains — no square root is applied anywhere in the pass. -/
theorem C9_error_norms (bs : Nat) (slu : (Nat → Nat → ℚ) → (Nat → ℚ) → (Nat → ℚ))
    (sol : Nat → ℚ) (st : ℚ × ℚ) (e : elemData) (cls : List elemData) :
    elem_step bs slu sol st e = (st.1 + qpErr bs sol e, st.2 + mmErr bs slu sol e)
  ∧ error_pass bs slu sol cls
      = ((cls.map (qpErr bs sol)).sum, (cls.map (mmErr bs slu sol)).sum) := by
  refine ⟨elem_step_spec bs slu sol st e, ?_⟩
  unfold error_pass
  rw [error_pass_fold]
  simp
